import Mathlib

/-!
Verification development for the DocSort document-scanning pipeline
(`scanner/scan.py` and `src/pages/img_upload.py`).

Points are modelled with rational coordinates.  The NumPy/SciPy distance
computations (`scipy.spatial.distance.cdist` with the euclidean metric,
`np.sqrt`) are modelled through squared distances wherever the code only
*compares* distances (comparison of euclidean distances agrees with
comparison of squared distances), and through `Nat.sqrt ∘ Nat.floor` where
the code takes `int(np.sqrt(...))` (for a nonnegative rational `q`,
`⌊Real.sqrt q⌋ = Nat.sqrt ⌊q⌋`, proved below as `natSqrt_floor_eq`).
`np.argsort` on the small (2- and 4-element) arrays appearing here is an
insertion sort, modelled by `List.insertionSort`.
-/

namespace DocSort

/-- A 2-D point, as the `(x, y)` rows of the `(4, 2)` NumPy arrays used by
`scan.py` and `img_upload.py`. -/
structure Point where
  x : ℚ
  y : ℚ
deriving DecidableEq, Repr

/-- Squared euclidean distance between two points. -/
def sqDist (p q : Point) : ℚ := (p.x - q.x) ^ 2 + (p.y - q.y) ^ 2

/-- `pts[np.argsort(pts[:, 0]), :]` — sort the points by x-coordinate. -/
def sortByX (pts : List Point) : List Point :=
  pts.insertionSort (fun a b => a.x ≤ b.x)

/-- `order_points` from `scanner/scan.py` (lines 13–29): sort by x, split
into the two left-most and the two right-most points, sort the left pair by
y into `(tl, bl)`, and sort the right pair by descending distance from `tl`
into `(br, tr)` (`rightMost[np.argsort(D)[::-1], :]`); return
`[tl, tr, br, bl]`.  Distances from `tl` are compared through `sqDist`.
The catch-all branch is unreachable for 4-point inputs. -/
def order_points (pts : List Point) : List Point :=
  let xSorted := sortByX pts
  let leftMost := (xSorted.take 2).insertionSort (fun a b => a.y ≤ b.y)
  match leftMost, xSorted.drop 2 with
  | [tl, bl], [r0, r1] =>
      let p := if sqDist tl r0 ≤ sqDist tl r1 then (r1, r0) else (r0, r1)
      [tl, p.2, p.1, bl]
  | _, _ => pts

/-- First minimiser of `f` in a list (`np.argmin` semantics: on ties the
earliest index wins).  The empty-list default is irrelevant: the code only
calls this on 4-point lists. -/
def argminP (f : Point → ℚ) : List Point → Point
  | [] => ⟨0, 0⟩
  | [p] => p
  | p :: q :: rest =>
      let m := argminP f (q :: rest)
      if f p ≤ f m then p else m

/-- First maximiser of `f` in a list (`np.argmax` semantics). -/
def argmaxP (f : Point → ℚ) : List Point → Point
  | [] => ⟨0, 0⟩
  | [p] => p
  | p :: q :: rest =>
      let m := argmaxP f (q :: rest)
      if f m ≤ f p then p else m

/-- Coordinate sum `x + y`, as `pts.sum(axis=1)` in `order_corners`. -/
def coordSum (p : Point) : ℚ := p.x + p.y

/-- Coordinate difference `y - x`: `np.diff(pts, axis=1)` subtracts the
first column (x) from the second (y). -/
def coordDiff (p : Point) : ℚ := p.y - p.x

/-- `ImageProcessor.order_corners` from `src/pages/img_upload.py`
(lines 72–86): `rect[0] = pts[argmin(s)]`, `rect[1] = pts[argmin(d)]`,
`rect[2] = pts[argmax(s)]`, `rect[3] = pts[argmax(d)]` with `s = x + y`
and `d = y - x`; returned as `[rect[0], rect[1], rect[2], rect[3]]`. -/
def order_corners (pts : List Point) : List Point :=
  [argminP coordSum pts, argminP coordDiff pts,
   argmaxP coordSum pts, argmaxP coordDiff pts]

/-! ### Generic facts about key-based insertion sort -/

/-- A list of length 4 is a literal 4-element list. -/
theorem exists_four_of_length_eq {α : Type} {l : List α} (h : l.length = 4) :
    ∃ a b c d : α, l = [a, b, c, d] := by
  match l, h with
  | [a, b, c, d], _ => exact ⟨a, b, c, d, rfl⟩

/-- `insertionSort` by a key `f` produces a list sorted by that key. -/
theorem insertionSort_key_sorted {α β : Type} [LinearOrder β] (f : α → β) (l : List α) :
    (l.insertionSort (fun a b => f a ≤ f b)).Sorted (fun a b => f a ≤ f b) := by
  haveI : IsTotal α (fun a b => f a ≤ f b) := ⟨fun a b => le_total (f a) (f b)⟩
  haveI : IsTrans α (fun a b => f a ≤ f b) := ⟨fun _ _ _ h1 h2 => le_trans h1 h2⟩
  exact List.sorted_insertionSort _ l

/-- When all keys are distinct, sorting by the key is a function of the
underlying multiset: two permuted lists have the same sort. -/
theorem insertionSort_key_eq_of_perm {α β : Type} [LinearOrder β] (f : α → β)
    {l₁ l₂ : List α} (hperm : l₁.Perm l₂)
    (hdist : l₂.Pairwise (fun a b => f a ≠ f b)) :
    l₁.insertionSort (fun a b => f a ≤ f b) = l₂.insertionSort (fun a b => f a ≤ f b) := by
  have hsymm : ∀ {x y : α}, f x ≠ f y → f y ≠ f x := fun h hba => h hba.symm
  have p₁ : (l₁.insertionSort (fun a b => f a ≤ f b)).Perm l₂ :=
    (List.perm_insertionSort _ _).trans hperm
  have p₂ : (l₂.insertionSort (fun a b => f a ≤ f b)).Perm l₂ :=
    List.perm_insertionSort _ _
  have d₁ : (l₁.insertionSort (fun a b => f a ≤ f b)).Pairwise (fun a b => f a ≠ f b) :=
    (p₁.pairwise_iff hsymm).mpr hdist
  have d₂ : (l₂.insertionSort (fun a b => f a ≤ f b)).Pairwise (fun a b => f a ≠ f b) :=
    (p₂.pairwise_iff hsymm).mpr hdist
  have s₁ : (l₁.insertionSort (fun a b => f a ≤ f b)).Sorted (fun a b => f a < f b) := by
    exact ((insertionSort_key_sorted f l₁).and d₁).imp
      (fun h => lt_of_le_of_ne h.1 h.2)
  have s₂ : (l₂.insertionSort (fun a b => f a ≤ f b)).Sorted (fun a b => f a < f b) := by
    exact ((insertionSort_key_sorted f l₂).and d₂).imp
      (fun h => lt_of_le_of_ne h.1 h.2)
  haveI : IsAntisymm α (fun a b => f a < f b) :=
    ⟨fun _ _ h1 h2 => absurd h2 (lt_asymm h1)⟩
  exact List.eq_of_perm_of_sorted (p₁.trans p₂.symm) s₁ s₂

/-! ### Structure of `order_points` on 4-point inputs -/

/-- `x`-coordinates of the input are pairwise distinct (the non-degeneracy
condition of spec §4.1: "if two points share exactly the same x
(degenerate)"). -/
def DistinctX (pts : List Point) : Prop :=
  pts.Pairwise (fun a b => a.x ≠ b.x)

/-- Case analysis of `order_points` on a 4-element list: the output is
`[tl, tr, br, bl]` where `[tl, bl]` is (a permutation of) the left pair,
`[tr, br]` of the right pair, `tl.y ≤ bl.y`, and `br` is at least as far
from `tl` as `tr` is. -/
theorem order_points_cases (pts : List Point) (hlen : pts.length = 4) :
    ∃ tl tr br bl : Point,
      order_points pts = [tl, tr, br, bl] ∧
      [tl, bl].Perm ((sortByX pts).take 2) ∧
      [tr, br].Perm ((sortByX pts).drop 2) ∧
      tl.y ≤ bl.y ∧ sqDist tl tr ≤ sqDist tl br := by
  have hxlen : (sortByX pts).length = 4 := by
    unfold sortByX
    rw [(List.perm_insertionSort _ _).length_eq, hlen]
  obtain ⟨q0, q1, q2, q3, hx⟩ := exists_four_of_length_eq hxlen
  by_cases hy : q0.y ≤ q1.y
  · by_cases hd : sqDist q0 q2 ≤ sqDist q0 q3
    · refine ⟨q0, q2, q3, q1, ?_, ?_, ?_, hy, hd⟩
      · simp [order_points, hx, List.insertionSort, List.orderedInsert, hy, hd]
      · rw [hx]; exact List.Perm.refl _
      · rw [hx]; exact List.Perm.refl _
    · refine ⟨q0, q3, q2, q1, ?_, ?_, ?_, hy, le_of_not_le hd⟩
      · simp [order_points, hx, List.insertionSort, List.orderedInsert, hy, hd]
      · rw [hx]; exact List.Perm.refl _
      · rw [hx]; exact List.Perm.swap q2 q3 []
  · have hy' : q1.y ≤ q0.y := le_of_not_le hy
    by_cases hd : sqDist q1 q2 ≤ sqDist q1 q3
    · refine ⟨q1, q2, q3, q0, ?_, ?_, ?_, hy', hd⟩
      · simp [order_points, hx, List.insertionSort, List.orderedInsert, hy, hd]
      · rw [hx]; exact List.Perm.swap q0 q1 []
      · rw [hx]; exact List.Perm.refl _
    · refine ⟨q1, q3, q2, q0, ?_, ?_, ?_, hy', le_of_not_le hd⟩
      · simp [order_points, hx, List.insertionSort, List.orderedInsert, hy, hd]
      · rw [hx]; exact List.Perm.swap q0 q1 []
      · rw [hx]; exact List.Perm.swap q2 q3 []

/-- With pairwise-distinct x-coordinates, `order_points` depends only on the
set of input points, not on their order. -/
theorem order_points_eq_of_perm {l₁ l₂ : List Point} (hperm : l₁.Perm l₂)
    (hdist : DistinctX l₂) (hlen : l₂.length = 4) :
    order_points l₁ = order_points l₂ := by
  have hx : sortByX l₁ = sortByX l₂ :=
    insertionSort_key_eq_of_perm Point.x hperm hdist
  have hxlen : (sortByX l₂).length = 4 := by
    unfold sortByX
    rw [(List.perm_insertionSort _ _).length_eq, hlen]
  obtain ⟨q0, q1, q2, q3, h2⟩ := exists_four_of_length_eq hxlen
  have h1 : sortByX l₁ = [q0, q1, q2, q3] := hx.trans h2
  by_cases hy : q0.y ≤ q1.y <;>
    simp [order_points, h1, h2, List.insertionSort, List.orderedInsert, hy]

/-- The output of `order_points` on a 4-point list is a permutation of the
input. -/
theorem order_points_perm (pts : List Point) (hlen : pts.length = 4) :
    (order_points pts).Perm pts := by
  obtain ⟨tl, tr, br, bl, hout, hleft, hright, _, _⟩ := order_points_cases pts hlen
  rw [hout]
  have h1 : [tl, tr, br, bl].Perm ([tl, bl] ++ [tr, br]) :=
    (@List.perm_append_comm Point [tr, br] [bl]).cons tl
  have h2 : ([tl, bl] ++ [tr, br]).Perm
      (((sortByX pts).take 2) ++ ((sortByX pts).drop 2)) := hleft.append hright
  have h5 : (((sortByX pts).take 2) ++ ((sortByX pts).drop 2)).Perm pts := by
    rw [List.take_append_drop]
    exact List.perm_insertionSort _ _
  exact h1.trans (h2.trans h5)

/-- C1.  For a 4-point input with pairwise-distinct x-coordinates,
`order_points` returns `[tl, tr, br, bl]` where: the output is a
permutation of the input; `tl` and `bl` (the left pair) have strictly
smaller x than `tr` and `br` (the right pair), so the left pair consists
of the 2 smallest-x points and the right pair of the 2 largest-x points;
within the left pair the smaller-y point is `tl`; and within the right
pair the point farther (in euclidean distance, compared via squared
distance) from `tl` is `br`.  Convexity is not needed. -/
theorem order_points_canonical (pts : List Point) (tl tr br bl : Point)
    (hlen : pts.length = 4) (hdist : DistinctX pts)
    (hout : order_points pts = [tl, tr, br, bl]) :
    [tl, tr, br, bl].Perm pts ∧
    tl.x < tr.x ∧ tl.x < br.x ∧ bl.x < tr.x ∧ bl.x < br.x ∧
    tl.y ≤ bl.y ∧ sqDist tl tr ≤ sqDist tl br := by
  obtain ⟨tl', tr', br', bl', hout', hleft, hright, hyy, hdd⟩ :=
    order_points_cases pts hlen
  rw [hout] at hout'
  obtain ⟨rfl, rfl, rfl, rfl⟩ : tl = tl' ∧ tr = tr' ∧ br = br' ∧ bl = bl' := by
    simpa using hout'
  have hperm : [tl, tr, br, bl].Perm pts := by
    rw [← hout]; exact order_points_perm pts hlen
  have hxlen : (sortByX pts).length = 4 := by
    unfold sortByX
    rw [(List.perm_insertionSort _ _).length_eq, hlen]
  obtain ⟨q0, q1, q2, q3, hx⟩ := exists_four_of_length_eq hxlen
  have hsorted : (sortByX pts).Sorted (fun a b => a.x ≤ b.x) :=
    insertionSort_key_sorted Point.x pts
  have hsp : (sortByX pts).Perm pts := List.perm_insertionSort _ _
  have hdx : (sortByX pts).Pairwise (fun a b => a.x ≠ b.x) :=
    (hsp.pairwise_iff (fun h hba => h hba.symm)).mpr hdist
  have hstrict : (sortByX pts).Pairwise (fun a b => a.x < b.x) :=
    (hsorted.and hdx).imp (fun h => lt_of_le_of_ne h.1 h.2)
  rw [hx] at hstrict hleft hright
  have hc1 := List.pairwise_cons.mp hstrict
  have hc2 := List.pairwise_cons.mp hc1.2
  have h02 : q0.x < q2.x := hc1.1 q2 (by simp)
  have h03 : q0.x < q3.x := hc1.1 q3 (by simp)
  have h12 : q1.x < q2.x := hc2.1 q2 (by simp)
  have h13 : q1.x < q3.x := hc2.1 q3 (by simp)
  have htl : tl = q0 ∨ tl = q1 := by
    have := hleft.mem_iff.mp (List.mem_cons_self tl [bl])
    simpa using this
  have hbl : bl = q0 ∨ bl = q1 := by
    have := hleft.mem_iff.mp (by simp : bl ∈ [tl, bl])
    simpa using this
  have htr : tr = q2 ∨ tr = q3 := by
    have := hright.mem_iff.mp (List.mem_cons_self tr [br])
    simpa using this
  have hbr : br = q2 ∨ br = q3 := by
    have := hright.mem_iff.mp (by simp : br ∈ [tr, br])
    simpa using this
  refine ⟨hperm, ?_, ?_, ?_, ?_, hyy, hdd⟩
  · rcases htl with rfl | rfl <;> rcases htr with rfl | rfl <;> assumption
  · rcases htl with rfl | rfl <;> rcases hbr with rfl | rfl <;> assumption
  · rcases hbl with rfl | rfl <;> rcases htr with rfl | rfl <;> assumption
  · rcases hbl with rfl | rfl <;> rcases hbr with rfl | rfl <;> assumption

/-- Witness for C1 at the quad `[(0,2), (3,0), (10,3), (9,9)]`, whose
canonical order is `[(3,0), (10,3), (9,9), (0,2)]`. -/
theorem order_points_canonical_witness :
    [(⟨3, 0⟩ : Point), ⟨10, 3⟩, ⟨9, 9⟩, ⟨0, 2⟩].Perm
      [⟨0, 2⟩, ⟨3, 0⟩, ⟨10, 3⟩, ⟨9, 9⟩] ∧
    (Point.mk 3 0).x < (Point.mk 10 3).x ∧
    (Point.mk 3 0).x < (Point.mk 9 9).x ∧
    (Point.mk 0 2).x < (Point.mk 10 3).x ∧
    (Point.mk 0 2).x < (Point.mk 9 9).x ∧
    (Point.mk 3 0).y ≤ (Point.mk 0 2).y ∧
    sqDist ⟨3, 0⟩ ⟨10, 3⟩ ≤ sqDist ⟨3, 0⟩ ⟨9, 9⟩ :=
  order_points_canonical [⟨0, 2⟩, ⟨3, 0⟩, ⟨10, 3⟩, ⟨9, 9⟩] ⟨3, 0⟩ ⟨10, 3⟩ ⟨9, 9⟩ ⟨0, 2⟩
    (by norm_num)
    (by norm_num [DistinctX, List.pairwise_cons])
    (by norm_num [order_points, sortByX, List.insertionSort, List.orderedInsert, sqDist])

/-- C7.  For a 4-point input with pairwise-distinct x-coordinates (the
spec's non-degeneracy condition for `order_points`), the result is
invariant under every permutation of the input, and `order_points` is
idempotent. -/
theorem order_points_invariant_idem (pts : List Point)
    (hlen : pts.length = 4) (hdist : DistinctX pts) :
    (∀ q : List Point, q.Perm pts → order_points q = order_points pts) ∧
    order_points (order_points pts) = order_points pts := by
  have hinv : ∀ q : List Point, q.Perm pts → order_points q = order_points pts :=
    fun q hq => order_points_eq_of_perm hq hdist hlen
  exact ⟨hinv, hinv _ (order_points_perm pts hlen)⟩

/-- Witness for C7: a transposed input gives the same output, and
`order_points` is idempotent on the quad `[(0,2), (3,0), (10,3), (9,9)]`. -/
theorem order_points_invariant_idem_witness :
    order_points [⟨3, 0⟩, ⟨0, 2⟩, ⟨10, 3⟩, ⟨9, 9⟩] =
      order_points [⟨0, 2⟩, ⟨3, 0⟩, ⟨10, 3⟩, ⟨9, 9⟩] ∧
    order_points (order_points [⟨0, 2⟩, ⟨3, 0⟩, ⟨10, 3⟩, ⟨9, 9⟩]) =
      order_points [⟨0, 2⟩, ⟨3, 0⟩, ⟨10, 3⟩, ⟨9, 9⟩] := by
  have h := order_points_invariant_idem [⟨0, 2⟩, ⟨3, 0⟩, ⟨10, 3⟩, ⟨9, 9⟩]
    (by norm_num) (by norm_num [DistinctX, List.pairwise_cons])
  exact ⟨h.1 _ (List.Perm.swap _ _ _), h.2⟩

/-! ### `four_point_transform` (scanner/scan.py lines 32–56) -/

/-- `int(np.sqrt(q))` for a nonnegative rational `q`: the integer part of
the square root, computed as `Nat.sqrt ⌊q⌋₊` (justified by
`natSqrt_floor_eq` below). -/
def intSqrt (q : ℚ) : ℕ := Nat.sqrt ⌊q⌋₊

/-- For `0 ≤ q`, `⌊Real.sqrt q⌋₊ = Nat.sqrt ⌊q⌋₊`: the model of
`int(np.sqrt(q))` agrees with the floor of the real square root. -/
theorem natSqrt_floor_eq (q : ℚ) (hq : 0 ≤ q) :
    ⌊Real.sqrt (q : ℝ)⌋₊ = Nat.sqrt ⌊q⌋₊ := by
  have h1 : ((Nat.sqrt ⌊q⌋₊ : ℝ)) ≤ Real.sqrt (q : ℝ) := by
    rw [show ((Nat.sqrt ⌊q⌋₊ : ℝ)) = Real.sqrt ((Nat.sqrt ⌊q⌋₊ : ℝ) ^ 2) from
      (Real.sqrt_sq (by positivity)).symm]
    apply Real.sqrt_le_sqrt
    have hnat : (Nat.sqrt ⌊q⌋₊) ^ 2 ≤ ⌊q⌋₊ := Nat.sqrt_le' _
    calc ((Nat.sqrt ⌊q⌋₊ : ℝ)) ^ 2 = (((Nat.sqrt ⌊q⌋₊) ^ 2 : ℕ) : ℝ) := by push_cast; ring
      _ ≤ ((⌊q⌋₊ : ℕ) : ℝ) := by exact_mod_cast hnat
      _ ≤ ((q : ℚ) : ℝ) := by exact_mod_cast Nat.floor_le hq
  have h2 : Real.sqrt (q : ℝ) < (Nat.sqrt ⌊q⌋₊ : ℝ) + 1 := by
    rw [Real.sqrt_lt' (by positivity)]
    have hnat : ⌊q⌋₊ + 1 ≤ (Nat.sqrt ⌊q⌋₊ + 1) ^ 2 :=
      Nat.succ_le_of_lt (Nat.lt_succ_sqrt' _)
    have hq1 : ((q : ℚ) : ℝ) < ((⌊q⌋₊ : ℕ) : ℝ) + 1 := by
      exact_mod_cast Nat.lt_floor_add_one q
    calc ((q : ℚ) : ℝ) < ((⌊q⌋₊ : ℕ) : ℝ) + 1 := hq1
      _ ≤ ((Nat.sqrt ⌊q⌋₊ : ℝ) + 1) ^ 2 := by
          have : (((⌊q⌋₊ + 1 : ℕ)) : ℝ) ≤ (((Nat.sqrt ⌊q⌋₊ + 1) ^ 2 : ℕ) : ℝ) := by
            exact_mod_cast hnat
          push_cast at this ⊢
          linarith
  exact (Nat.floor_eq_iff (Real.sqrt_nonneg _)).mpr ⟨h1, h2⟩

/-- Output size `(maxWidth, maxHeight)` computed by `four_point_transform`:
`maxWidth = max(int(widthA), int(widthB))` with `widthA = dist(br, bl)` and
`widthB = dist(tr, tl)`; `maxHeight = max(int(heightA), int(heightB))` with
`heightA = dist(tr, br)` and `heightB = dist(tl, bl)`.  The catch-all
branch is unreachable for 4-point inputs. -/
def fptSize (pts : List Point) : ℕ × ℕ :=
  match order_points pts with
  | [tl, tr, br, bl] =>
      (max (intSqrt (sqDist br bl)) (intSqrt (sqDist tr tl)),
       max (intSqrt (sqDist tr br)) (intSqrt (sqDist tl bl)))
  | _ => (0, 0)

/-- Destination points `[[0, 0], [maxWidth-1, 0], [maxWidth-1, maxHeight-1],
[0, maxHeight-1]]` of `four_point_transform`. -/
def fptDst (pts : List Point) : List Point :=
  [⟨0, 0⟩, ⟨((fptSize pts).1 : ℚ) - 1, 0⟩,
   ⟨((fptSize pts).1 : ℚ) - 1, ((fptSize pts).2 : ℚ) - 1⟩,
   ⟨0, ((fptSize pts).2 : ℚ) - 1⟩]

/-- `four_point_transform(image, pts)`: order the points, compute the
destination rectangle and output size, and warp.  The perspective solve and
resampling (`cv2.getPerspectiveTransform` + `cv2.warpPerspective`, library
calls) are the opaque `warp`, applied to exactly the data the code passes:
the ordered rect, the destination corners and the output size. -/
def four_point_transform {I O : Type} (warp : I → List Point → List Point → ℕ × ℕ → O)
    (image : I) (pts : List Point) : O :=
  warp image (order_points pts) (fptDst pts) (fptSize pts)

/-- Errors named by the spec (§7).  The spec says a degenerate quad makes
the rectifier signal `InvalidGeometry`. -/
inductive GeometryError where
  | invalidGeometry
deriving DecidableEq, Repr

/-- The outcome of `four_point_transform` as a fallible computation: the
body (lines 32–56) contains no validation and no raise statement, so the
only outcome is a normal return, recorded as `Except.ok` of the computed
output size.  No `InvalidGeometry` error exists anywhere in the
repository. -/
def rectify_result (pts : List Point) : Except GeometryError (ℕ × ℕ) :=
  Except.ok (fptSize pts)

/-- C2.  The output width is the floor of the larger of the two horizontal
edge lengths of the ordered quad, the output height the floor of the larger
of the two vertical edge lengths; the destination corners are
`[(0,0), (w-1,0), (w-1,h-1), (0,h-1)]`; and on the axis-aligned quad
`[(0,0), (100,0), (100,50), (0,50)]` the output size is exactly 100×50
with destination corners `[(0,0), (99,0), (99,49), (0,49)]`. -/
theorem four_point_transform_dims (pts : List Point) (tl tr br bl : Point)
    (hout : order_points pts = [tl, tr, br, bl]) :
    (fptSize pts).1 =
      ⌊max (Real.sqrt ((sqDist br bl : ℚ) : ℝ)) (Real.sqrt ((sqDist tr tl : ℚ) : ℝ))⌋₊ ∧
    (fptSize pts).2 =
      ⌊max (Real.sqrt ((sqDist tr br : ℚ) : ℝ)) (Real.sqrt ((sqDist tl bl : ℚ) : ℝ))⌋₊ ∧
    fptDst pts = [⟨0, 0⟩, ⟨((fptSize pts).1 : ℚ) - 1, 0⟩,
      ⟨((fptSize pts).1 : ℚ) - 1, ((fptSize pts).2 : ℚ) - 1⟩,
      ⟨0, ((fptSize pts).2 : ℚ) - 1⟩] ∧
    fptSize [⟨0, 0⟩, ⟨100, 0⟩, ⟨100, 50⟩, ⟨0, 50⟩] = (100, 50) ∧
    fptDst [⟨0, 0⟩, ⟨100, 0⟩, ⟨100, 50⟩, ⟨0, 50⟩] = [⟨0, 0⟩, ⟨99, 0⟩, ⟨99, 49⟩, ⟨0, 49⟩] := by
  have hnn : ∀ p q₁ : Point, (0 : ℚ) ≤ sqDist p q₁ := by
    intro p q₁; unfold sqDist; positivity
  have hmax : ∀ a b : ℚ, 0 ≤ a → 0 ≤ b →
      max (intSqrt a) (intSqrt b) =
        ⌊max (Real.sqrt (a : ℝ)) (Real.sqrt (b : ℝ))⌋₊ := by
    intro a b ha hb
    rw [show intSqrt a = ⌊Real.sqrt (a : ℝ)⌋₊ from (natSqrt_floor_eq a ha).symm,
        show intSqrt b = ⌊Real.sqrt (b : ℝ)⌋₊ from (natSqrt_floor_eq b hb).symm]
    rcases le_total (Real.sqrt (a : ℝ)) (Real.sqrt (b : ℝ)) with h | h
    · rw [max_eq_right h, max_eq_right (Nat.floor_mono h)]
    · rw [max_eq_left h, max_eq_left (Nat.floor_mono h)]
  refine ⟨?_, ?_, rfl, ?_, ?_⟩
  · simp only [fptSize, hout]
    exact hmax _ _ (hnn _ _) (hnn _ _)
  · simp only [fptSize, hout]
    exact hmax _ _ (hnn _ _) (hnn _ _)
  · have h100 : order_points [⟨0, 0⟩, ⟨100, 0⟩, ⟨100, 50⟩, ⟨0, 50⟩] =
        [⟨0, 0⟩, ⟨100, 0⟩, ⟨100, 50⟩, ⟨0, 50⟩] := by
      norm_num [order_points, sortByX, List.insertionSort, List.orderedInsert, sqDist]
    simp only [fptSize, h100]
    norm_num [sqDist, intSqrt]
  · have h100 : order_points [⟨0, 0⟩, ⟨100, 0⟩, ⟨100, 50⟩, ⟨0, 50⟩] =
        [⟨0, 0⟩, ⟨100, 0⟩, ⟨100, 50⟩, ⟨0, 50⟩] := by
      norm_num [order_points, sortByX, List.insertionSort, List.orderedInsert, sqDist]
    simp only [fptDst, fptSize, h100]
    norm_num [sqDist, intSqrt]

/-- Witness for C2 at the quad `[(0,0), (100,0), (100,50), (0,50)]`. -/
theorem four_point_transform_dims_witness :
    (fptSize [⟨0, 0⟩, ⟨100, 0⟩, ⟨100, 50⟩, ⟨0, 50⟩]).1 =
      ⌊max (Real.sqrt ((sqDist ⟨100, 50⟩ ⟨0, 50⟩ : ℚ) : ℝ))
           (Real.sqrt ((sqDist ⟨100, 0⟩ ⟨0, 0⟩ : ℚ) : ℝ))⌋₊ ∧
    (fptSize [⟨0, 0⟩, ⟨100, 0⟩, ⟨100, 50⟩, ⟨0, 50⟩]).2 =
      ⌊max (Real.sqrt ((sqDist ⟨100, 0⟩ ⟨100, 50⟩ : ℚ) : ℝ))
           (Real.sqrt ((sqDist ⟨0, 0⟩ ⟨0, 50⟩ : ℚ) : ℝ))⌋₊ ∧
    fptDst [⟨0, 0⟩, ⟨100, 0⟩, ⟨100, 50⟩, ⟨0, 50⟩] =
      [⟨0, 0⟩, ⟨((fptSize [⟨0, 0⟩, ⟨100, 0⟩, ⟨100, 50⟩, ⟨0, 50⟩]).1 : ℚ) - 1, 0⟩,
       ⟨((fptSize [⟨0, 0⟩, ⟨100, 0⟩, ⟨100, 50⟩, ⟨0, 50⟩]).1 : ℚ) - 1,
        ((fptSize [⟨0, 0⟩, ⟨100, 0⟩, ⟨100, 50⟩, ⟨0, 50⟩]).2 : ℚ) - 1⟩,
       ⟨0, ((fptSize [⟨0, 0⟩, ⟨100, 0⟩, ⟨100, 50⟩, ⟨0, 50⟩]).2 : ℚ) - 1⟩] ∧
    fptSize [⟨0, 0⟩, ⟨100, 0⟩, ⟨100, 50⟩, ⟨0, 50⟩] = (100, 50) ∧
    fptDst [⟨0, 0⟩, ⟨100, 0⟩, ⟨100, 50⟩, ⟨0, 50⟩] = [⟨0, 0⟩, ⟨99, 0⟩, ⟨99, 49⟩, ⟨0, 49⟩] :=
  four_point_transform_dims [⟨0, 0⟩, ⟨100, 0⟩, ⟨100, 50⟩, ⟨0, 50⟩]
    ⟨0, 0⟩ ⟨100, 0⟩ ⟨100, 50⟩ ⟨0, 50⟩
    (by norm_num [order_points, sortByX, List.insertionSort, List.orderedInsert, sqDist])

/-- Counterexample to C3: on 4 coincident points `(5, 7)` the rectifier
returns normally with computed output size `(0, 0)` — a zero-area result,
not an `InvalidGeometry` error. -/
theorem rectify_coincident_counterexample :
    rectify_result [⟨5, 7⟩, ⟨5, 7⟩, ⟨5, 7⟩, ⟨5, 7⟩] = Except.ok (0, 0) := by
  norm_num [rectify_result, fptSize, order_points, sortByX, List.insertionSort,
    List.orderedInsert, sqDist, intSqrt]

/-- C3 (amended).  `four_point_transform` performs no degeneracy
validation: on any 4 coincident points it computes output size `(0, 0)`
(zero area) and returns normally; the 0×0 size and the degenerate rect are
passed straight to the perspective-transform library calls, and no
`InvalidGeometry` error is raised (none exists in the code). -/
theorem rectify_coincident_no_error (x y : ℚ) :
    rectify_result [⟨x, y⟩, ⟨x, y⟩, ⟨x, y⟩, ⟨x, y⟩] = Except.ok (0, 0) := by
  simp [rectify_result, fptSize, order_points, sortByX, List.insertionSort,
    List.orderedInsert, sqDist, intSqrt]

/-! ### `find_document_corners` (scanner/scan.py lines 59–93)

The image-processing prefix (resize to working height 500, grayscale,
Gaussian blur, Canny, morphological close, `cv2.findContours`) and the
per-contour measurements (`cv2.contourArea`, `cv2.arcLength`,
`cv2.approxPolyDP`) are opaque library calls; they appear as the
parameters `contours` (the external contours extracted from the closed
edge map of the working image), `area`, `perim` and `approx`.  The
selection logic, the `0.02 * perimeter` tolerance, the top-5 cut, the
rescale by `ratio = 500.0 / orig_h` and the whole-image fallback are the
repository's own code and are modelled explicitly. -/

/-- `sorted(contours, key=cv2.contourArea, reverse=True)[:5]` — stable
descending sort by area, keep the first 5. -/
def topContours {C : Type} (area : C → ℚ) (contours : List C) : List C :=
  (contours.insertionSort (fun a b => area b ≤ area a)).take 5

/-- `0.02 * perimeter` — the `approxPolyDP` tolerance for a contour. -/
def approxTol {C : Type} (perim : C → ℚ) (c : C) : ℚ := 2 / 100 * perim c

/-- `len(approx) == 4` — the acceptance test for a candidate contour. -/
def hasFourCorners {C : Type} (approx : C → ℚ → List Point) (perim : C → ℚ)
    (c : C) : Bool :=
  (approx c (approxTol perim c)).length == 4

/-- `find_document_corners`: scan the top-5 contours in area-descending
order, return the first 4-vertex polygonal approximation rescaled by
`corners / ratio`; if none qualifies, return the corners of the full
image `[[0,0], [w,0], [w,h], [0,h]]`. -/
def find_document_corners {C : Type} (area perim : C → ℚ)
    (approx : C → ℚ → List Point) (orig_h orig_w : ℚ)
    (contours : List C) : List Point :=
  let ratio : ℚ := 500 / orig_h
  match (topContours area contours).find? (hasFourCorners approx perim) with
  | some c => (approx c (approxTol perim c)).map (fun p => ⟨p.x / ratio, p.y / ratio⟩)
  | none => [⟨0, 0⟩, ⟨orig_w, 0⟩, ⟨orig_w, orig_h⟩, ⟨0, orig_h⟩]

/-- `find?` returns the head of the first satisfying suffix. -/
theorem find?_eq_some_of_split {α : Type} (p : α → Bool) (l1 : List α) (c : α)
    (l2 : List α) (h1 : ∀ d ∈ l1, p d = false) (hc : p c = true) :
    (l1 ++ c :: l2).find? p = some c := by
  induction l1 with
  | nil => simp [List.find?, hc]
  | cons a t ih =>
      have ha : p a = false := h1 a (by simp)
      simpa [List.find?, ha] using ih (fun d hd => h1 d (by simp [hd]))

/-- C4.  When no contour among the top 5 approximates to exactly 4
vertices, `find_document_corners` returns the image's own bounding
rectangle `[(0,0), (w,0), (w,h), (0,h)]` (fallback at inset fraction 0,
deterministic in the image bounds) — and for every input it returns
exactly 4 points, never failing. -/
theorem find_document_corners_fallback {C : Type} (area perim : C → ℚ)
    (approx : C → ℚ → List Point) (orig_h orig_w : ℚ) (contours : List C)
    (hnone : ∀ c ∈ topContours area contours,
      (approx c (approxTol perim c)).length ≠ 4) :
    find_document_corners area perim approx orig_h orig_w contours =
      [⟨0, 0⟩, ⟨orig_w, 0⟩, ⟨orig_w, orig_h⟩, ⟨0, orig_h⟩] ∧
    ∀ cs : List C, (find_document_corners area perim approx orig_h orig_w cs).length = 4 := by
  have hfind : (topContours area contours).find? (hasFourCorners approx perim) = none := by
    rw [List.find?_eq_none]
    intro a ha
    simp only [hasFourCorners, beq_iff_eq]
    exact hnone a ha
  refine ⟨by simp [find_document_corners, hfind], ?_⟩
  intro cs
  cases hf : (topContours area cs).find? (hasFourCorners approx perim) with
  | none => simp [find_document_corners, hf]
  | some c =>
      have hc := List.find?_some hf
      simp only [hasFourCorners, beq_iff_eq] at hc
      simp [find_document_corners, hf, hc]

/-- Witness for C4: two contours whose approximations have 1 vertex each
force the fallback on a 500×600 image. -/
theorem find_document_corners_fallback_witness :
    find_document_corners (fun _ : ℕ => (1 : ℚ)) (fun _ => 4)
      (fun _ _ => [⟨0, 0⟩]) 500 600 [0, 1] =
      [⟨0, 0⟩, ⟨600, 0⟩, ⟨600, 500⟩, ⟨0, 500⟩] ∧
    (find_document_corners (fun _ : ℕ => (1 : ℚ)) (fun _ => 4)
      (fun _ _ => [⟨0, 0⟩]) 500 600 [0, 1]).length = 4 := by
  have h := find_document_corners_fallback (fun _ : ℕ => (1 : ℚ)) (fun _ => 4)
    (fun _ _ => [⟨0, 0⟩]) 500 600 [0, 1] (by intro c hc; norm_num)
  exact ⟨h.1, h.2 [0, 1]⟩

/-- C5.  The detector keeps the top 5 contours by area in descending
order (every kept contour comes from the input and dominates every
dropped one), uses tolerance `0.02 * perimeter`, accepts the first
candidate in that order whose approximation has exactly 4 vertices, and
rescales the accepted vertices by dividing by `ratio = 500 / orig_h`. -/
theorem find_document_corners_pipeline {C : Type} (area perim : C → ℚ)
    (approx : C → ℚ → List Point) (orig_h orig_w : ℚ) (contours : List C)
    (c : C) (l1 l2 : List C)
    (hsplit : topContours area contours = l1 ++ c :: l2)
    (hl1 : ∀ d ∈ l1, (approx d (approxTol perim d)).length ≠ 4)
    (hc : (approx c (approxTol perim c)).length = 4) :
    (topContours area contours).Sorted (fun a b => area b ≤ area a) ∧
    (topContours area contours).length ≤ 5 ∧
    (∀ d ∈ topContours area contours, d ∈ contours) ∧
    (∀ d₁ ∈ topContours area contours,
      ∀ d₂ ∈ (contours.insertionSort (fun a b => area b ≤ area a)).drop 5,
        area d₂ ≤ area d₁) ∧
    approxTol perim c = 2 / 100 * perim c ∧
    find_document_corners area perim approx orig_h orig_w contours =
      (approx c (approxTol perim c)).map
        (fun p => ⟨p.x / (500 / orig_h), p.y / (500 / orig_h)⟩) := by
  haveI : IsTotal C (fun a b => area b ≤ area a) :=
    ⟨fun a b => le_total (area b) (area a)⟩
  haveI : IsTrans C (fun a b => area b ≤ area a) :=
    ⟨fun _ _ _ h1 h2 => le_trans h2 h1⟩
  have hsorted : (contours.insertionSort (fun a b => area b ≤ area a)).Sorted
      (fun a b => area b ≤ area a) := List.sorted_insertionSort _ _
  refine ⟨?_, ?_, ?_, ?_, rfl, ?_⟩
  · exact List.Pairwise.sublist (List.take_sublist 5 _) hsorted
  · exact List.length_take_le 5 _
  · intro d hd
    exact (List.perm_insertionSort _ _).subset (List.mem_of_mem_take hd)
  · intro d₁ hd₁ d₂ hd₂
    have hp := hsorted
    rw [← List.take_append_drop 5 (contours.insertionSort (fun a b => area b ≤ area a))]
      at hp
    exact (List.pairwise_append.mp hp).2.2 d₁ hd₁ d₂ hd₂
  · have hfind : (topContours area contours).find? (hasFourCorners approx perim) =
        some c := by
      rw [hsplit]
      refine find?_eq_some_of_split _ l1 c l2 ?_ ?_
      · intro d hd
        simp only [hasFourCorners, beq_eq_false_iff_ne, ne_eq]
        exact hl1 d hd
      · simp only [hasFourCorners, beq_iff_eq]
        exact hc
    simp [find_document_corners, hfind]

/-- Witness for C5: contours `[1, 3, 2]` with areas `1, 3, 2` sort to
`[3, 2, 1]`; contour 3 approximates to 1 vertex, contour 2 to 4 vertices,
so contour 2 is accepted and its vertices are divided by
`ratio = 500/250 = 2`. -/
theorem find_document_corners_pipeline_witness :
    find_document_corners (fun n : ℕ => (n : ℚ)) (fun _ => 50)
      (fun n _ => if n = 2 then [⟨0, 0⟩, ⟨2, 0⟩, ⟨2, 2⟩, ⟨0, 2⟩] else [⟨0, 0⟩])
      250 400 [1, 3, 2] = [⟨0, 0⟩, ⟨1, 0⟩, ⟨1, 1⟩, ⟨0, 1⟩] := by
  have h := find_document_corners_pipeline (fun n : ℕ => (n : ℚ)) (fun _ => 50)
    (fun n _ => if n = 2 then [⟨0, 0⟩, ⟨2, 0⟩, ⟨2, 2⟩, ⟨0, 2⟩] else [⟨0, 0⟩])
    250 400 [1, 3, 2] 2 [3] [1]
    (by norm_num [topContours, List.insertionSort, List.orderedInsert])
    (by intro d hd; simp only [List.mem_singleton] at hd; subst hd; norm_num)
    (by norm_num)
  rw [h.2.2.2.2.2]
  norm_num

/-! ### `scan_document` (scanner/scan.py lines 96–100) -/

/-- `scan_document(image)`: `orig = image.copy()` (value semantics: the
image itself), `corners = find_document_corners(image)`; returns the pair
`(orig, corners)` — nothing else.  The contour pipeline is abstracted as
in `find_document_corners`. -/
def scan_document {I C : Type} (area perim : C → ℚ) (approx : C → ℚ → List Point)
    (orig_h orig_w : ℚ) (contours : List C) (image : I) : I × List Point :=
  (image, find_document_corners area perim approx orig_h orig_w contours)

/-- Counterexample to C8: `scan_document` returns only `(image, corners)`;
no fallback flag is exposed, and fallback use cannot be recovered from the
return value.  Concretely: on a 500×600 image, an empty contour list
(fallback taken) and a single contour whose approximation is the
full-image quad (quad found, `ratio = 1`) produce *identical* outputs,
while their fallback statuses differ (`find?` is `none` for the first and
`some` for the second). -/
theorem scan_document_no_flag_counterexample :
    scan_document (fun _ : ℕ => (1 : ℚ)) (fun _ => 4)
        (fun _ _ => [⟨0, 0⟩, ⟨600, 0⟩, ⟨600, 500⟩, ⟨0, 500⟩]) 500 600 [] (0 : ℕ) =
      scan_document (fun _ : ℕ => (1 : ℚ)) (fun _ => 4)
        (fun _ _ => [⟨0, 0⟩, ⟨600, 0⟩, ⟨600, 500⟩, ⟨0, 500⟩]) 500 600 [0] (0 : ℕ) ∧
    (topContours (fun _ : ℕ => (1 : ℚ)) ([] : List ℕ)).find?
      (hasFourCorners (fun _ _ => [⟨0, 0⟩, ⟨600, 0⟩, ⟨600, 500⟩, ⟨0, 500⟩])
        (fun _ => 4)) = none ∧
    (topContours (fun _ : ℕ => (1 : ℚ)) [0]).find?
      (hasFourCorners (fun _ _ => [⟨0, 0⟩, ⟨600, 0⟩, ⟨600, 500⟩, ⟨0, 500⟩])
        (fun _ => 4)) = some 0 := by
  refine ⟨?_, ?_, ?_⟩
  · norm_num [scan_document, find_document_corners, topContours, hasFourCorners,
      approxTol, List.insertionSort, List.orderedInsert, List.find?]
  · rfl
  · norm_num [topContours, hasFourCorners, approxTol, List.insertionSort,
      List.orderedInsert, List.find?]

/-- C8 (amended).  `scan_document` returns exactly the pair of the
original image and the detected corner list; no boolean fallback
indication is part of the return value. -/
theorem scan_document_returns_pair {I C : Type} (area perim : C → ℚ)
    (approx : C → ℚ → List Point) (orig_h orig_w : ℚ) (contours : List C)
    (image : I) :
    scan_document area perim approx orig_h orig_w contours image =
      (image, find_document_corners area perim approx orig_h orig_w contours) := rfl

/-! ### `ImageProcessor.process_document` (src/pages/img_upload.py lines 88–109)

Images are modelled as rational-valued pixel grids; the colour-space
conversion `cv2.cvtColor(·, COLOR_BGR2GRAY)`, the Gaussian blur
`cv2.GaussianBlur(·, (0,0), 3)` and the Gaussian-weighted local mean
inside `cv2.adaptiveThreshold` (blockSize 21) are opaque library
operators `cvt`, `blur3` and `wmean`.  The 8-bit quantisation of stored
pixel values is abstracted (values stay rational); `cv2.addWeighted`'s
saturation to the uint8 range is kept. -/

/-- A single-channel image: a rational pixel value at each coordinate. -/
def Gray : Type := ℤ × ℤ → ℚ

/-- `cv2.addWeighted(src1, alpha, src2, beta, gamma)`: pixelwise
`alpha*src1 + beta*src2 + gamma`, saturated to `[0, 255]`. -/
def addWeighted (src1 : Gray) (alpha : ℚ) (src2 : Gray) (beta gamma : ℚ) : Gray :=
  fun p => max 0 (min 255 (alpha * src1 p + beta * src2 p + gamma))

/-- `cv2.adaptiveThreshold(src, maxValue, ADAPTIVE_THRESH_GAUSSIAN_C,
THRESH_BINARY, blockSize, C)`: pixel `p` becomes `maxValue` when
`src p > T p` and `0` otherwise, where the threshold `T p` is the
Gaussian-weighted neighbourhood mean `wmean src p` minus the offset
constant `C`. -/
def adaptiveThreshold (wmean : Gray → Gray) (maxValue offC : ℚ) (src : Gray) : Gray :=
  fun p => if wmean src p - offC < src p then maxValue else 0

/-- The hidden state read by `_save_temp_image`: the wall clock
(`time.time()`) and the NumPy RNG draws (`np.random.randint(0, 10000)`),
one per saved file. -/
structure TempState where
  time : ℕ
  seeds : ℕ → ℕ

/-- The temp-file path `scan_result_{int(time.time())}_{randint}.png`
built by `_save_temp_image` for the `k`-th save of one invocation. -/
def temp_path (st : TempState) (k : ℕ) : String :=
  "scan_result_" ++ toString st.time ++ "_" ++ toString (st.seeds k % 10000) ++ ".png"

/-- `process_document(original_image, corners, display_ratio)`: rescale
the corners back to original coordinates (`corners / display_ratio`),
warp via `four_point_transform`, convert to grayscale, Gaussian-blur,
unsharp-mask with `cv2.addWeighted(gray, 1.5, blurred, -0.5, 0)`, and
adaptively threshold with `maxValue 255`, Gaussian mean, `C = 15`.
Returns the three dict entries "Original Scan", "Grayscale + Sharpened"
and "Final Result", each a saved temp path paired with the image content
it stores. -/
def process_document {I : Type} (cvt : I → Gray) (blur3 : Gray → Gray)
    (wmean : Gray → Gray) (warp : I → List Point → List Point → ℕ × ℕ → I)
    (st : TempState) (original_image : I) (corners : List Point)
    (display_ratio : ℚ) :
    (String × I) × (String × Gray) × (String × Gray) :=
  let corners_array := corners.map (fun p => ⟨p.x / display_ratio, p.y / display_ratio⟩)
  let warped := four_point_transform warp original_image corners_array
  let gray := cvt warped
  let blurred := blur3 gray
  let sharpen := addWeighted gray (3/2) blurred (-(1/2)) 0
  let thresh := adaptiveThreshold wmean 255 15 sharpen
  ((temp_path st 0, warped), (temp_path st 1, sharpen), (temp_path st 2, thresh))

/-- C6.  `process_document` returns exactly three artifacts: the warped
(rectified) image unchanged; the sharpened image, pixelwise
`1.5 * gray - 0.5 * blurred-gray` (saturated to the pixel range) of the
grayscale conversion of the warped image; and the adaptive binarization
of the sharpened image against the local Gaussian-mean threshold with
offset constant 15 (255 above threshold, 0 below). -/
theorem process_document_artifacts {I : Type} (cvt : I → Gray)
    (blur3 wmean : Gray → Gray) (warp : I → List Point → List Point → ℕ × ℕ → I)
    (st : TempState) (img : I) (corners : List Point) (ratio : ℚ) (warped : I)
    (hw : warped = four_point_transform warp img
      (corners.map (fun p => ⟨p.x / ratio, p.y / ratio⟩))) :
    (process_document cvt blur3 wmean warp st img corners ratio).1.2 = warped ∧
    (process_document cvt blur3 wmean warp st img corners ratio).2.1.2 =
      (fun p => max 0 (min 255
        (3 / 2 * cvt warped p - 1 / 2 * blur3 (cvt warped) p))) ∧
    (process_document cvt blur3 wmean warp st img corners ratio).2.2.2 =
      (fun p => if wmean ((process_document cvt blur3 wmean warp st img corners ratio).2.1.2) p - 15 <
          (process_document cvt blur3 wmean warp st img corners ratio).2.1.2 p
        then 255 else 0) := by
  subst hw
  refine ⟨rfl, ?_, rfl⟩
  funext p
  simp only [process_document, addWeighted]
  have : 3 / 2 * cvt (four_point_transform warp img
        (corners.map (fun p => ⟨p.x / ratio, p.y / ratio⟩))) p +
      -(1 / 2) * blur3 (cvt (four_point_transform warp img
        (corners.map (fun p => ⟨p.x / ratio, p.y / ratio⟩)))) p + 0 =
      3 / 2 * cvt (four_point_transform warp img
        (corners.map (fun p => ⟨p.x / ratio, p.y / ratio⟩))) p -
      1 / 2 * blur3 (cvt (four_point_transform warp img
        (corners.map (fun p => ⟨p.x / ratio, p.y / ratio⟩)))) p := by ring
  rw [this]

/-- Witness for C6 at a concrete instantiation: one-pixel-type image
`I := ℚ`, identity-like operators, a single corner list and ratio 1. -/
theorem process_document_artifacts_witness :
    (process_document (fun c => fun _ => c) id id (fun i _ _ _ => i)
      ⟨0, fun _ => 0⟩ (7 : ℚ) [⟨0, 0⟩, ⟨1, 0⟩, ⟨1, 1⟩, ⟨0, 1⟩] 1).1.2 = (7 : ℚ) ∧
    (process_document (fun c => fun _ => c) id id (fun i _ _ _ => i)
      ⟨0, fun _ => 0⟩ (7 : ℚ) [⟨0, 0⟩, ⟨1, 0⟩, ⟨1, 1⟩, ⟨0, 1⟩] 1).2.1.2 =
      (fun p => max 0 (min 255
        (3 / 2 * (fun _ => (7 : ℚ)) p - 1 / 2 * id (fun _ => (7 : ℚ)) p))) ∧
    (process_document (fun c => fun _ => c) id id (fun i _ _ _ => i)
      ⟨0, fun _ => 0⟩ (7 : ℚ) [⟨0, 0⟩, ⟨1, 0⟩, ⟨1, 1⟩, ⟨0, 1⟩] 1).2.2.2 =
      (fun p => if id ((process_document (fun c => fun _ => c) id id (fun i _ _ _ => i)
          ⟨0, fun _ => 0⟩ (7 : ℚ) [⟨0, 0⟩, ⟨1, 0⟩, ⟨1, 1⟩, ⟨0, 1⟩] 1).2.1.2) p - 15 <
          ((process_document (fun c => fun _ => c) id id (fun i _ _ _ => i)
          ⟨0, fun _ => 0⟩ (7 : ℚ) [⟨0, 0⟩, ⟨1, 0⟩, ⟨1, 1⟩, ⟨0, 1⟩] 1).2.1.2) p
        then 255 else 0) := by
  have h := process_document_artifacts (fun c => fun _ => c) id id
    (fun i _ _ _ => i) ⟨0, fun _ => 0⟩ (7 : ℚ) [⟨0, 0⟩, ⟨1, 0⟩, ⟨1, 1⟩, ⟨0, 1⟩] 1
    (7 : ℚ) rfl
  exact h

/-- C9.  The three artifact contents of `process_document` do not depend
on the hidden temp-file state (wall clock and RNG draws): two invocations
on the identical input produce bit-identical `original`, `sharpened` and
`final` contents — the pixel pipeline is a deterministic function of its
input. -/
theorem process_document_deterministic {I : Type} (cvt : I → Gray)
    (blur3 wmean : Gray → Gray) (warp : I → List Point → List Point → ℕ × ℕ → I)
    (st₁ st₂ : TempState) (img : I) (corners : List Point) (ratio : ℚ) :
    (process_document cvt blur3 wmean warp st₁ img corners ratio).1.2 =
      (process_document cvt blur3 wmean warp st₂ img corners ratio).1.2 ∧
    (process_document cvt blur3 wmean warp st₁ img corners ratio).2.1.2 =
      (process_document cvt blur3 wmean warp st₂ img corners ratio).2.1.2 ∧
    (process_document cvt blur3 wmean warp st₁ img corners ratio).2.2.2 =
      (process_document cvt blur3 wmean warp st₂ img corners ratio).2.2.2 :=
  ⟨rfl, rfl, rfl⟩

/-! ### Comparing the two ordering implementations (C10) -/

/-- z-component of the cross product `(b - a) × (c - b)`. -/
def crossZ (a b c : Point) : ℚ :=
  (b.x - a.x) * (c.y - b.y) - (b.y - a.y) * (c.x - b.x)

/-- Strict convexity of the quadrilateral `a b c d` in this cyclic order:
all four turns have the same strict orientation. -/
def ConvexQuad (a b c d : Point) : Prop :=
  (0 < crossZ a b c ∧ 0 < crossZ b c d ∧ 0 < crossZ c d a ∧ 0 < crossZ d a b) ∨
  (crossZ a b c < 0 ∧ crossZ b c d < 0 ∧ crossZ c d a < 0 ∧ crossZ d a b < 0)

/-- All values of `f` on the list are pairwise distinct, so `f` has a
unique minimiser and a unique maximiser there. -/
def DistinctOn (f : Point → ℚ) (pts : List Point) : Prop :=
  pts.Pairwise (fun a b => f a ≠ f b)

/-- Counterexample to C10: on the convex quadrilateral
`(0,2), (3,0), (10,3), (9,9)` — pairwise-distinct x-coordinates,
pairwise-distinct coordinate sums and pairwise-distinct coordinate
differences, so every argmin/argmax is unique — the two implementations
disagree: `order_corners` returns `[(0,2), (10,3), (9,9), (0,2)]`
(the point `(0,2)` is both its top-left and its bottom-left), while
`order_points` returns `[(3,0), (10,3), (9,9), (0,2)]`. -/
theorem order_corners_ne_order_points :
    ConvexQuad ⟨0, 2⟩ ⟨3, 0⟩ ⟨10, 3⟩ ⟨9, 9⟩ ∧
    DistinctX [⟨0, 2⟩, ⟨3, 0⟩, ⟨10, 3⟩, ⟨9, 9⟩] ∧
    DistinctOn coordSum [⟨0, 2⟩, ⟨3, 0⟩, ⟨10, 3⟩, ⟨9, 9⟩] ∧
    DistinctOn coordDiff [⟨0, 2⟩, ⟨3, 0⟩, ⟨10, 3⟩, ⟨9, 9⟩] ∧
    order_corners [⟨0, 2⟩, ⟨3, 0⟩, ⟨10, 3⟩, ⟨9, 9⟩] =
      [⟨0, 2⟩, ⟨10, 3⟩, ⟨9, 9⟩, ⟨0, 2⟩] ∧
    order_points [⟨0, 2⟩, ⟨3, 0⟩, ⟨10, 3⟩, ⟨9, 9⟩] =
      [⟨3, 0⟩, ⟨10, 3⟩, ⟨9, 9⟩, ⟨0, 2⟩] ∧
    order_corners [⟨0, 2⟩, ⟨3, 0⟩, ⟨10, 3⟩, ⟨9, 9⟩] ≠
      order_points [⟨0, 2⟩, ⟨3, 0⟩, ⟨10, 3⟩, ⟨9, 9⟩] := by
  refine ⟨?_, ?_, ?_, ?_, ?_, ?_, ?_⟩
  · left
    norm_num [crossZ]
  · norm_num [DistinctX, List.pairwise_cons]
  · norm_num [DistinctOn, coordSum, List.pairwise_cons]
  · norm_num [DistinctOn, coordDiff, List.pairwise_cons]
  · norm_num [order_corners, argminP, argmaxP, coordSum, coordDiff]
  · norm_num [order_points, sortByX, List.insertionSort, List.orderedInsert, sqDist]
  · have h1 : order_corners [⟨0, 2⟩, ⟨3, 0⟩, ⟨10, 3⟩, ⟨9, 9⟩] =
        [⟨0, 2⟩, ⟨10, 3⟩, ⟨9, 9⟩, ⟨0, 2⟩] := by
      norm_num [order_corners, argminP, argmaxP, coordSum, coordDiff]
    have h2 : order_points [⟨0, 2⟩, ⟨3, 0⟩, ⟨10, 3⟩, ⟨9, 9⟩] =
        [⟨3, 0⟩, ⟨10, 3⟩, ⟨9, 9⟩, ⟨0, 2⟩] := by
      norm_num [order_points, sortByX, List.insertionSort, List.orderedInsert, sqDist]
    rw [h1, h2]
    norm_num

/-- C10 (amended).  The two orderings agree on axis-aligned rectangles:
for `x0 < x1` and `y0 < y1`, both `order_corners` and `order_points` map
the corner list `[(x0,y0), (x1,y0), (x1,y1), (x0,y1)]` to itself (the
same `[tl, tr, br, bl]` sequence); on general convex quadrilaterals with
unique sum/difference extremisers they can disagree. -/
theorem order_corners_eq_order_points_rect (x0 x1 y0 y1 : ℚ)
    (hx : x0 < x1) (hy : y0 < y1) :
    order_corners [⟨x0, y0⟩, ⟨x1, y0⟩, ⟨x1, y1⟩, ⟨x0, y1⟩] =
      order_points [⟨x0, y0⟩, ⟨x1, y0⟩, ⟨x1, y1⟩, ⟨x0, y1⟩] ∧
    order_points [⟨x0, y0⟩, ⟨x1, y0⟩, ⟨x1, y1⟩, ⟨x0, y1⟩] =
      [⟨x0, y0⟩, ⟨x1, y0⟩, ⟨x1, y1⟩, ⟨x0, y1⟩] := by
  have hnx : ¬ (x1 ≤ x0) := not_le.mpr hx
  have hsort : sortByX [⟨x0, y0⟩, ⟨x1, y0⟩, ⟨x1, y1⟩, ⟨x0, y1⟩] =
      [⟨x0, y0⟩, ⟨x0, y1⟩, ⟨x1, y0⟩, ⟨x1, y1⟩] := by
    simp [sortByX, List.insertionSort, List.orderedInsert, hnx, le_refl]
  have hd : sqDist ⟨x0, y0⟩ ⟨x1, y0⟩ ≤ sqDist ⟨x0, y0⟩ ⟨x1, y1⟩ := by
    simp only [sqDist]
    nlinarith [sq_nonneg (y0 - y1)]
  have hop : order_points [⟨x0, y0⟩, ⟨x1, y0⟩, ⟨x1, y1⟩, ⟨x0, y1⟩] =
      [⟨x0, y0⟩, ⟨x1, y0⟩, ⟨x1, y1⟩, ⟨x0, y1⟩] := by
    simp [order_points, hsort, List.insertionSort, List.orderedInsert, hy.le, hd]
  refine ⟨?_, hop⟩
  rw [hop]
  have h1 : ¬ (x1 + y1 ≤ x0 + y1) := by linarith
  have h2 : x0 + y0 ≤ x1 + y0 := by linarith
  have h3 : x0 + y0 ≤ x0 + y1 := by linarith
  have h4 : x0 + y1 ≤ x1 + y1 := by linarith
  have h5 : ¬ (x1 + y1 ≤ x1 + y0) := by linarith
  have h6 : ¬ (x1 + y1 ≤ x0 + y0) := by linarith
  have h7 : y1 - x1 ≤ y1 - x0 := by linarith
  have h8 : y0 - x1 ≤ y1 - x1 := by linarith
  have h9 : ¬ (y0 - x0 ≤ y0 - x1) := by linarith
  have h10 : ¬ (y1 - x0 ≤ y1 - x1) := by linarith
  have h11 : ¬ (y1 - x0 ≤ y0 - x1) := by linarith
  have h12 : ¬ (y1 - x0 ≤ y0 - x0) := by linarith
  by_cases hbd : x1 + y0 ≤ x0 + y1
  · simp [order_corners, argminP, argmaxP, coordSum, coordDiff,
      h1, h2, h3, h4, h5, h6, h7, h8, h9, h10, h11, h12, hbd]
  · simp [order_corners, argminP, argmaxP, coordSum, coordDiff,
      h1, h2, h3, h4, h5, h6, h7, h8, h9, h10, h11, h12, hbd]

/-- Witness for the amended C10 at the rectangle `x0 = 0, x1 = 2, y0 = 0,
y1 = 1`. -/
theorem order_corners_eq_order_points_rect_witness :
    order_corners [⟨0, 0⟩, ⟨2, 0⟩, ⟨2, 1⟩, ⟨0, 1⟩] =
      order_points [⟨0, 0⟩, ⟨2, 0⟩, ⟨2, 1⟩, ⟨0, 1⟩] ∧
    order_points [⟨0, 0⟩, ⟨2, 0⟩, ⟨2, 1⟩, ⟨0, 1⟩] =
      [⟨0, 0⟩, ⟨2, 0⟩, ⟨2, 1⟩, ⟨0, 1⟩] :=
  order_corners_eq_order_points_rect 0 2 0 1 (by norm_num) (by norm_num)

end DocSort
